import Mathlib

/-!
Verification of the zestic backup engine's restore/backup helpers against its
natural-language specification.  Go functions are shallowly embedded as Lean
definitions; OS interactions (file opens, attribute syscalls) are modelled by
explicit oracle records describing the outcome of each call, and Go maps are
modelled by lists with set semantics.
-/

namespace Zestic

/-- Byte strings (Go `string` / `[]byte`) as lists of byte values. -/
abbrev ByteStr := List Nat

/-! ## `deduceEncryptionHandlingFlags` (restorer, fileswriter_windows)

Direct translation of `deduceEncryptionHandlingFlags(isAlreadyExists,
isEncryptionNeeded, isAlreadyEncrypted)`: returns the triple
`(isSameEncryption, isAddEncryption, isRemoveEncryption)`. -/

def deduceEncryptionHandlingFlags (isAlreadyExists isEncryptionNeeded isAlreadyEncrypted : Bool) :
    Bool × Bool × Bool :=
  if isAlreadyExists then
    if isEncryptionNeeded then
      if isAlreadyEncrypted then
        (true, false, false)
      else
        (false, true, false)
    else
      if isAlreadyEncrypted then
        (false, false, true)
      else
        (true, false, false)
  else
    (false, isEncryptionNeeded, !isEncryptionNeeded)

/-! ## `filterItems` and `removeExtraStreams` (restorer, fileswriter_windows)

`filterItems(referenceArray, evalArray)` builds a Go `map[string]bool` from
`referenceArray` and appends to the result every element of `evalArray` that is
not in the map.  The map is modelled as a list of keys inserted with set
semantics; lookup is list membership. -/

def buildRefMap (referenceArray : List String) : List String :=
  referenceArray.foldl (fun m item => if item ∈ m then m else m ++ [item]) []

def filterItems (referenceArray evalArray : List String) : List String :=
  let referenceArrayMap := buildRefMap referenceArray
  evalArray.foldl (fun result item =>
    if item ∈ referenceArrayMap then result else result ++ [item]) []

/-- `removeExtraStreams(path, adsValues, mainPath)`: the on-disk stream names
come from `fs.GetADStreamNames` (an OS call, here the `existingStreams`
argument); the function removes `mainPath ++ s` for every stream `s` kept by
`filterItems`.  We return the list of removed paths. -/
def removeExtraStreams (mainPath : String) (adsValues existingStreams : List String) :
    List String :=
  (filterItems adsValues existingStreams).map (fun extraStream => mainPath ++ extraStream)

theorem buildRefMap_mem (ref : List String) (x : String) :
    x ∈ buildRefMap ref ↔ x ∈ ref := by
  suffices h : ∀ acc : List String,
      (x ∈ ref.foldl (fun m item => if item ∈ m then m else m ++ [item]) acc)
        ↔ (x ∈ acc ∨ x ∈ ref) by
    simpa [buildRefMap] using h []
  induction ref with
  | nil => simp
  | cons a tl ih =>
    intro acc
    by_cases hacc : a ∈ acc
    · rw [List.foldl_cons, if_pos hacc, ih]
      constructor
      · rintro (h | h)
        · exact Or.inl h
        · exact Or.inr (List.mem_cons_of_mem _ h)
      · rintro (h | h)
        · exact Or.inl h
        · rcases List.mem_cons.mp h with rfl | h
          · exact Or.inl hacc
          · exact Or.inr h
    · rw [List.foldl_cons, if_neg hacc, ih]
      simp only [List.mem_append, List.mem_singleton, List.mem_cons]
      tauto

theorem filterItems_eq_filter (ref eval : List String) :
    filterItems ref eval = eval.filter (fun s => !ref.contains s) := by
  suffices h : ∀ acc : List String,
      (eval.foldl (fun result item =>
        if item ∈ buildRefMap ref then result else result ++ [item]) acc)
        = acc ++ eval.filter (fun s => !ref.contains s) by
    simpa [filterItems] using h []
  induction eval with
  | nil => simp
  | cons a tl ih =>
    intro acc
    by_cases ha : a ∈ ref
    · rw [List.foldl_cons, if_pos ((buildRefMap_mem ref a).mpr ha), ih]
      simp [List.filter_cons, ha]
    · rw [List.foldl_cons, if_neg (fun hc => ha ((buildRefMap_mem ref a).mp hc)), ih]
      simp [List.filter_cons, ha]

/-- Claim C7: stale-stream removal is exact.  `filterItems(referenceArray,
evalArray)` returns exactly the elements of `evalArray` that do not occur in
`referenceArray`, in their original order (it is a sublist of `evalArray`),
and removes no element that occurs in `referenceArray`; consequently
`removeExtraStreams` removes precisely the on-disk streams whose names are not
in the snapshot's TypeHasADS stream list. -/
theorem C7_removeExtraStreams_exact (mainPath : String) (adsValues existingStreams : List String) :
    filterItems adsValues existingStreams
        = existingStreams.filter (fun s => !adsValues.contains s)
      ∧ (∀ s, s ∈ filterItems adsValues existingStreams
          ↔ s ∈ existingStreams ∧ s ∉ adsValues)
      ∧ List.Sublist (filterItems adsValues existingStreams) existingStreams
      ∧ removeExtraStreams mainPath adsValues existingStreams
        = (existingStreams.filter (fun s => !adsValues.contains s)).map
            (fun s => mainPath ++ s) := by
  refine ⟨filterItems_eq_filter _ _, ?_, ?_, ?_⟩
  · intro s
    rw [filterItems_eq_filter]
    simp [List.mem_filter]
  · rw [filterItems_eq_filter]
    exact List.filter_sublist _
  · rw [removeExtraStreams, filterItems_eq_filter]

/-! ## `SaveDir` child ordering (archiver_unix / archiver_windows)

Go compares strings byte-wise; `byteLE` is that order on `ByteStr`.
`sort.Strings` is modelled by `List.insertionSort` over this order (the claim
only concerns sortedness and the underlying multiset, and equal strings are
identical, so the choice of sorting algorithm is immaterial). -/

def byteLE : ByteStr → ByteStr → Bool
  | [], _ => true
  | _ :: _, [] => false
  | a :: as, b :: bs =>
    if a < b then true
    else if b < a then false
    else byteLE as bs

def byteRel : ByteStr → ByteStr → Prop := fun a b => byteLE a b = true

instance : DecidableRel byteRel := fun a b => decEq (byteLE a b) true

theorem byteLE_total (a b : ByteStr) : byteLE a b = true ∨ byteLE b a = true := by
  induction a generalizing b with
  | nil => left; rfl
  | cons x xs ih =>
    cases b with
    | nil => right; rfl
    | cons y ys =>
      rcases Nat.lt_trichotomy x y with h | h | h
      · left; simp [byteLE, h]
      · subst h
        rcases ih ys with h' | h'
        · left; simp [byteLE, h']
        · right; simp [byteLE, h']
      · right; simp [byteLE, h]

theorem byteLE_trans {a b c : ByteStr} (hab : byteLE a b = true) (hbc : byteLE b c = true) :
    byteLE a c = true := by
  induction a generalizing b c with
  | nil => rfl
  | cons x xs ih =>
    cases b with
    | nil => simp [byteLE] at hab
    | cons y ys =>
      cases c with
      | nil => simp [byteLE] at hbc
      | cons z zs =>
        simp only [byteLE] at hab hbc ⊢
        rcases Nat.lt_trichotomy x y with hxy | hxy | hxy
        · rcases Nat.lt_trichotomy y z with hyz | hyz | hyz
          · simp [Nat.lt_trans hxy hyz]
          · subst hyz; simp [hxy]
          · simp [hxy, Nat.lt_asymm hxy, Nat.lt_asymm hyz] at hbc ⊢
            omega
        · subst hxy
          rcases Nat.lt_trichotomy x z with hyz | hyz | hyz
          · simp [hyz]
          · subst hyz
            simp only [Nat.lt_irrefl, if_false, if_neg] at hab hbc ⊢
            exact ih hab hbc
          · simp [Nat.lt_asymm hyz, hyz] at hbc
        · simp [Nat.lt_asymm hxy, hxy] at hab

instance : IsTotal ByteStr byteRel := ⟨byteLE_total⟩

instance : IsTrans ByteStr byteRel := ⟨fun _ _ _ => byteLE_trans⟩

/-- Model of Go `sort.Strings` (ascending byte-wise order). -/
def sortStrings (l : List ByteStr) : List ByteStr := List.insertionSort byteRel l

/-- The Windows path separator byte used by `arch.FS.Join`. -/
def sepByte : Nat := 92

/-- `arch.FS.Join(dir, name)`. -/
def joinPath (dir name : ByteStr) : ByteStr := dir ++ sepByte :: name

/-- `getPathsIncludingADS(arch, dir, names)`: for each name it appends the
joined path and then (`addADSStreams`) one sibling path `pathname ++ stream`
per alternate data stream returned by `fs.GetADStreamNames(pathname)` (the
`adsOf` oracle). -/
def getPathsIncludingADS (dir : ByteStr) (names : List ByteStr) (adsOf : ByteStr → List ByteStr) :
    List ByteStr :=
  names.foldl (fun paths name =>
    (paths ++ [joinPath dir name])
      ++ (adsOf (joinPath dir name)).map (fun adsStream => joinPath dir name ++ adsStream)) []

/-- The order in which the non-Windows `SaveDir` processes children:
`sort.Strings(names)` before the loop. -/
def saveDirOrderUnix (names : List ByteStr) : List ByteStr := sortStrings names

/-- The order in which the Windows `SaveDir` processes children:
ADS sibling paths are added first, then `sort.Strings(paths)`. -/
def saveDirOrderWindows (dir : ByteStr) (names : List ByteStr) (adsOf : ByteStr → List ByteStr) :
    List ByteStr :=
  sortStrings (getPathsIncludingADS dir names adsOf)

theorem getPathsIncludingADS_eq (dir : ByteStr) (names : List ByteStr)
    (adsOf : ByteStr → List ByteStr) :
    getPathsIncludingADS dir names adsOf
      = (names.map (fun name =>
          joinPath dir name
            :: (adsOf (joinPath dir name)).map (fun adsStream => joinPath dir name ++ adsStream))).flatten := by
  suffices h : ∀ acc : List ByteStr,
      (names.foldl (fun paths name =>
        (paths ++ [joinPath dir name])
          ++ (adsOf (joinPath dir name)).map (fun adsStream => joinPath dir name ++ adsStream)) acc)
        = acc ++ (names.map (fun name =>
            joinPath dir name
              :: (adsOf (joinPath dir name)).map (fun adsStream => joinPath dir name ++ adsStream))).flatten by
    simpa [getPathsIncludingADS] using h []
  induction names with
  | nil => simp
  | cons n tl ih =>
    intro acc
    rw [List.foldl_cons, ih]
    simp

theorem byteLE_append_left (p a b : ByteStr) : byteLE (p ++ a) (p ++ b) = byteLE a b := by
  induction p with
  | nil => rfl
  | cons x xs ih => simp [byteLE, ih]

theorem mem_getPathsIncludingADS_prefix {dir : ByteStr} {names : List ByteStr}
    {adsOf : ByteStr → List ByteStr} {p : ByteStr}
    (hp : p ∈ getPathsIncludingADS dir names adsOf) :
    ∃ rest, p = (dir ++ [sepByte]) ++ rest := by
  rw [getPathsIncludingADS_eq] at hp
  rcases List.mem_flatten.mp hp with ⟨l, hl, hpl⟩
  rcases List.mem_map.mp hl with ⟨n, _, rfl⟩
  rcases List.mem_cons.mp hpl with rfl | hstream
  · exact ⟨n, by simp [joinPath]⟩
  · rcases List.mem_map.mp hstream with ⟨s, _, rfl⟩
    exact ⟨n ++ s, by simp [joinPath]⟩

/-- Claim C8: `SaveDir` processes directory children in byte-wise sorted name
order on all platforms.  On non-Windows the processed sequence is exactly the
sorted child-name list.  On Windows the processed sequence is a sorted
permutation of the joined child paths together with, for each file carrying
alternate data streams, sibling entries named by appending the ADS suffix to
the file's path — all inserted before sorting — and, the directory prefix
being common, the sequence is byte-wise sorted on the name parts as well. -/
theorem C8_saveDir_sorted_children (names : List ByteStr) (dir : ByteStr)
    (adsOf : ByteStr → List ByteStr) :
    (saveDirOrderUnix names = sortStrings names
        ∧ List.Sorted byteRel (saveDirOrderUnix names)
        ∧ List.Perm (saveDirOrderUnix names) names)
      ∧ (List.Sorted byteRel (saveDirOrderWindows dir names adsOf)
        ∧ List.Perm (saveDirOrderWindows dir names adsOf)
            ((names.map (fun name =>
              joinPath dir name
                :: (adsOf (joinPath dir name)).map
                    (fun adsStream => joinPath dir name ++ adsStream))).flatten)
        ∧ List.Sorted byteRel
            ((saveDirOrderWindows dir names adsOf).map
              (fun p => p.drop (dir.length + 1)))) := by
  refine ⟨⟨rfl, List.sorted_insertionSort byteRel names, List.perm_insertionSort byteRel names⟩,
    ?_, ?_, ?_⟩
  · exact List.sorted_insertionSort byteRel _
  · rw [saveDirOrderWindows, ← getPathsIncludingADS_eq]
    exact List.perm_insertionSort byteRel _
  · have hsorted : List.Sorted byteRel (saveDirOrderWindows dir names adsOf) :=
      List.sorted_insertionSort byteRel _
    have hmem : ∀ p ∈ saveDirOrderWindows dir names adsOf, ∃ rest, p = (dir ++ [sepByte]) ++ rest := by
      intro p hp
      exact mem_getPathsIncludingADS_prefix
        ((List.perm_insertionSort byteRel _).mem_iff.mp hp)
    rw [List.Sorted, List.pairwise_map]
    refine hsorted.imp_of_mem ?_
    intro a b ha hb hab
    rcases hmem a ha with ⟨ra, rfl⟩
    rcases hmem b hb with ⟨rb, rfl⟩
    have hlen : dir.length + 1 = (dir ++ [sepByte]).length := by simp
    simp only [byteRel] at hab ⊢
    rw [hlen, List.drop_left, List.drop_left]
    rwa [byteLE_append_left] at hab

/-- Claim C9: for all boolean inputs, `deduceEncryptionHandlingFlags` returns
flags of which exactly one of isSameEncryption, isAddEncryption,
isRemoveEncryption is true; isSameEncryption is true only when isAlreadyExists
is true, and when the file does not already exist isAddEncryption equals
isEncryptionNeeded. -/
theorem C9_deduceEncryptionHandlingFlags_exclusive
    (isAlreadyExists isEncryptionNeeded isAlreadyEncrypted : Bool) :
    (let flags := deduceEncryptionHandlingFlags isAlreadyExists isEncryptionNeeded isAlreadyEncrypted
     ((flags.1 = true ∧ flags.2.1 = false ∧ flags.2.2 = false)
        ∨ (flags.1 = false ∧ flags.2.1 = true ∧ flags.2.2 = false)
        ∨ (flags.1 = false ∧ flags.2.1 = false ∧ flags.2.2 = true))
      ∧ (flags.1 = true → isAlreadyExists = true)
      ∧ (isAlreadyExists = false → flags.2.1 = isEncryptionNeeded)) := by
  cases isAlreadyExists <;> cases isEncryptionNeeded <;> cases isAlreadyEncrypted <;> decide

/-! ## `sameAttributes` (restic/node.go)

`Attribute` is the restic name/value pair.  The Go `map[string]mapvalue`
(`mapvalue = {value []byte, present bool}`) is modelled as an association
list; `mapInsert` is map assignment (overwrite in place), `mapLookup` is map
indexing.  The three loops of `sameAttributes` become `buildAttrMap`,
`markOthers` (with `none` standing for the early `return false`) and
`allPresent`. -/

structure Attr where
  name : String
  value : ByteStr
deriving DecidableEq

abbrev AttrMap := List (String × ByteStr × Bool)

def mapInsert : AttrMap → String → ByteStr × Bool → AttrMap
  | [], k, v => [(k, v)]
  | e :: es, k, v => if e.1 = k then (k, v) :: es else e :: mapInsert es k v

def mapLookup : AttrMap → String → Option (ByteStr × Bool)
  | [], _ => none
  | e :: es, k => if e.1 = k then some e.2 else mapLookup es k

def buildAttrMap (attributes : List Attr) : AttrMap :=
  attributes.foldl (fun m attr => mapInsert m attr.name (attr.value, false)) []

def markOthers (m : AttrMap) : List Attr → Option AttrMap
  | [] => some m
  | attr :: rest =>
    match mapLookup m attr.name with
    | none => none
    | some v =>
      if v.1 = attr.value then markOthers (mapInsert m attr.name (v.1, true)) rest
      else none

def allPresent (m : AttrMap) : Bool := m.all (fun e => e.2.2)

def sameAttributes (attributes otherAttributes : List Attr) : Bool :=
  let nl := attributes.length
  let ol := otherAttributes.length
  if nl ≠ ol then false
  else if nl == 0 then true
  else
    match markOthers (buildAttrMap attributes) otherAttributes with
    | none => false
    | some m => allPresent m

/-- Canonical shape of the attribute map during `sameAttributes`: one entry
per attribute, flags given by a function of the name. -/
def mapWith (f : String → Bool) (xs : List Attr) : AttrMap :=
  xs.map (fun a => (a.name, a.value, f a.name))

def attrNames (xs : List Attr) : List String := xs.map (fun a => a.name)

theorem attr_eq_of_name_eq {xs : List Attr} (hnd : (attrNames xs).Nodup)
    {a b : Attr} (ha : a ∈ xs) (hb : b ∈ xs) (h : a.name = b.name) : a = b :=
  List.inj_on_of_nodup_map hnd ha hb h

theorem mapInsert_fresh {m : AttrMap} {k : String} (v : ByteStr × Bool)
    (hk : ∀ e ∈ m, e.1 ≠ k) : mapInsert m k v = m ++ [(k, v)] := by
  induction m with
  | nil => rfl
  | cons e es ih =>
    rw [mapInsert, if_neg (hk e (List.mem_cons_self e es)), ih (fun e' he' => hk e' (List.mem_cons_of_mem _ he'))]
    rfl

theorem buildAttrMap_go (xs : List Attr) : ∀ (acc : AttrMap),
    (attrNames xs).Nodup → (∀ e ∈ acc, e.1 ∉ attrNames xs) →
    (xs.foldl (fun m attr => mapInsert m attr.name (attr.value, false)) acc)
      = acc ++ mapWith (fun _ => false) xs := by
  induction xs with
  | nil => intro acc _ _; simp [mapWith]
  | cons a tl ih =>
    intro acc hnd hacc
    have hnames : attrNames (a :: tl) = a.name :: attrNames tl := rfl
    rw [hnames, List.nodup_cons] at hnd
    rw [List.foldl_cons,
      mapInsert_fresh _ (fun e he => fun hek =>
        hacc e he (by rw [hek, hnames]; exact List.mem_cons_self _ _)),
      ih (acc ++ [(a.name, a.value, false)]) hnd.2 ?_]
    · simp [mapWith]
    · intro e he
      rcases List.mem_append.mp he with he' | he'
      · exact fun hmem => hacc e he' (by rw [hnames]; exact List.mem_cons_of_mem _ hmem)
      · simp only [List.mem_singleton] at he'
        rw [he']
        exact hnd.1

theorem buildAttrMap_eq {xs : List Attr} (hnd : (attrNames xs).Nodup) :
    buildAttrMap xs = mapWith (fun _ => false) xs := by
  simpa [buildAttrMap] using buildAttrMap_go xs [] hnd (by simp)

theorem mapLookup_mapWith (f : String → Bool) (xs : List Attr) (k : String) :
    mapLookup (mapWith f xs) k
      = (xs.find? (fun a => a.name == k)).map (fun a => (a.value, f a.name)) := by
  induction xs with
  | nil => rfl
  | cons a tl ih =>
    by_cases h : a.name = k
    · rw [mapWith, List.map_cons, mapLookup, if_pos h,
        List.find?_cons_of_pos _ (by simp [h])]
      rfl
    · rw [mapWith, List.map_cons, mapLookup, if_neg h,
        List.find?_cons_of_neg _ (by simp [h])]
      exact ih

theorem mapInsert_mapWith {xs : List Attr} (hnd : (attrNames xs).Nodup)
    {x0 : Attr} (hx0 : x0 ∈ xs) (f : String → Bool) :
    mapInsert (mapWith f xs) x0.name (x0.value, true)
      = mapWith (fun n => if n = x0.name then true else f n) xs := by
  induction xs with
  | nil => cases hx0
  | cons a tl ih =>
    have hnames : attrNames (a :: tl) = a.name :: attrNames tl := rfl
    rw [hnames, List.nodup_cons] at hnd
    by_cases h : a.name = x0.name
    · have hx0a : x0 = a := by
        rcases List.mem_cons.mp hx0 with rfl | hmem
        · rfl
        · exact absurd (h ▸ List.mem_map_of_mem (fun a => a.name) hmem) hnd.1
      subst hx0a
      rw [mapWith, List.map_cons, mapInsert, if_pos h, h]
      rw [mapWith, List.map_cons, if_pos rfl]
      congr 1
      apply List.map_congr_left
      intro b hb
      have hbname : b.name ≠ x0.name := by
        intro hbn
        exact hnd.1 (h ▸ hbn ▸ List.mem_map_of_mem (fun a => a.name) hb)
      simp [hbname]
    · have hx0mem : x0 ∈ tl := by
        rcases List.mem_cons.mp hx0 with rfl | hmem
        · exact absurd rfl h
        · exact hmem
      calc mapInsert (mapWith f (a :: tl)) x0.name (x0.value, true)
          = (a.name, a.value, f a.name) :: mapInsert (mapWith f tl) x0.name (x0.value, true) := by
            simp only [mapWith, List.map_cons, mapInsert, if_neg h]
        _ = (a.name, a.value, f a.name)
              :: mapWith (fun n => if n = x0.name then true else f n) tl := by
            rw [ih hnd.2 hx0mem]
        _ = mapWith (fun n => if n = x0.name then true else f n) (a :: tl) := by
            simp only [mapWith, List.map_cons, if_neg h]

theorem markOthers_mapWith_some {xs : List Attr} (hnd : (attrNames xs).Nodup) :
    ∀ (ys : List Attr) (f : String → Bool), (∀ y ∈ ys, y ∈ xs) →
    markOthers (mapWith f xs) ys
      = some (mapWith (fun n => f n || ys.any (fun y => y.name == n)) xs) := by
  intro ys
  induction ys with
  | nil => intro f _; simp [markOthers, mapWith]
  | cons y ys ih =>
    intro f hsub
    have hy : y ∈ xs := hsub y (List.mem_cons_self _ _)
    obtain ⟨x0, hx0⟩ : ∃ x0, xs.find? (fun a => a.name == y.name) = some x0 := by
      rw [← Option.isSome_iff_exists, List.find?_isSome]
      exact ⟨y, hy, by simp⟩
    have hx0mem := List.mem_of_find?_eq_some hx0
    have hx0name : x0.name = y.name := by simpa using List.find?_some hx0
    have hx0y : x0 = y := attr_eq_of_name_eq hnd hx0mem hy hx0name
    subst hx0y
    simp only [markOthers, mapLookup_mapWith, hx0, Option.map_some']
    rw [if_pos trivial, mapInsert_mapWith hnd hy,
      ih _ (fun y' hy' => hsub y' (List.mem_cons_of_mem _ hy'))]
    congr 1
    apply List.map_congr_left
    intro b _
    by_cases hn : b.name = x0.name
    · simp [hn]
    · have hn' : (x0.name == b.name) = false :=
        beq_eq_false_iff_ne.mpr (fun hh => hn hh.symm)
      simp [hn, hn']

theorem markOthers_mapWith_none {xs : List Attr} (hnd : (attrNames xs).Nodup) :
    ∀ (ys : List Attr) (f : String → Bool), (∃ y ∈ ys, y ∉ xs) →
    markOthers (mapWith f xs) ys = none := by
  intro ys
  induction ys with
  | nil => rintro f ⟨y, hy, -⟩; cases hy
  | cons y ys ih =>
    rintro f ⟨y', hy', hnotin⟩
    by_cases hy : y ∈ xs
    · obtain ⟨x0, hx0⟩ : ∃ x0, xs.find? (fun a => a.name == y.name) = some x0 := by
        rw [← Option.isSome_iff_exists, List.find?_isSome]
        exact ⟨y, hy, by simp⟩
      have hx0mem := List.mem_of_find?_eq_some hx0
      have hx0name : x0.name = y.name := by simpa using List.find?_some hx0
      have hx0y : x0 = y := attr_eq_of_name_eq hnd hx0mem hy hx0name
      subst hx0y
      simp only [markOthers, mapLookup_mapWith, hx0, Option.map_some']
      rw [if_pos trivial, mapInsert_mapWith hnd hy]
      apply ih
      rcases List.mem_cons.mp hy' with rfl | h'
      · exact absurd hy hnotin
      · exact ⟨y', h', hnotin⟩
    · rcases hfind : xs.find? (fun a => a.name == y.name) with - | x0
      · simp [markOthers, mapLookup_mapWith, hfind]
      · have hx0mem := List.mem_of_find?_eq_some hfind
        have hx0name : x0.name = y.name := by simpa using List.find?_some hfind
        have hval : ¬ x0.value = y.value := by
          intro hv
          apply hy
          have hx0y : x0 = y := by
            cases x0; cases y
            simp only [Attr.mk.injEq]
            exact ⟨hx0name, hv⟩
          rwa [← hx0y]
        simp [markOthers, mapLookup_mapWith, hfind, hval]

theorem allPresent_mapWith (g : String → Bool) (xs : List Attr) :
    allPresent (mapWith g xs) = xs.all (fun a => g a.name) := by
  induction xs with
  | nil => rfl
  | cons a tl ih =>
    simp only [allPresent, mapWith, List.map_cons, List.all_cons] at ih ⊢
    rw [ih]

/-- Claim C10: node attribute comparison is order-insensitive set comparison.
For attribute lists in which no name occurs twice, `sameAttributes` returns
true exactly when the two lists contain the same set of (name, value) pairs,
irrespective of entry order. -/
theorem C10_sameAttributes_set_equality {xs ys : List Attr}
    (hx : (attrNames xs).Nodup) (hy : (attrNames ys).Nodup) :
    sameAttributes xs ys = true ↔ (∀ a : Attr, a ∈ xs ↔ a ∈ ys) := by
  constructor
  · intro h
    simp only [sameAttributes] at h
    by_cases hlen : xs.length = ys.length
    · rw [if_neg (by simpa using hlen)] at h
      by_cases hnil : xs.length = 0
      · have hxs : xs = [] := List.length_eq_zero.mp hnil
        have hys : ys = [] := List.length_eq_zero.mp (hlen ▸ hnil)
        subst hxs; subst hys
        simp
      · rw [if_neg (by simpa using hnil)] at h
        by_cases hsub : ∀ y ∈ ys, y ∈ xs
        · rw [buildAttrMap_eq hx, markOthers_mapWith_some hx ys (fun _ => false) hsub] at h
          simp only [allPresent_mapWith, Bool.false_or, List.all_eq_true] at h
          intro a
          constructor
          · intro ha
            obtain ⟨y, hymem, hyname⟩ := List.any_eq_true.mp (h a ha)
            have hyx : y ∈ xs := hsub y hymem
            have : y = a := attr_eq_of_name_eq hx hyx ha (by simpa using hyname)
            exact this ▸ hymem
          · exact hsub a
        · push_neg at hsub
          rw [buildAttrMap_eq hx, markOthers_mapWith_none hx ys (fun _ => false) hsub] at h
          cases h
    · rw [if_pos (by simpa using hlen)] at h
      cases h
  · intro hset
    have hxnd : xs.Nodup := List.Nodup.of_map _ hx
    have hynd : ys.Nodup := List.Nodup.of_map _ hy
    have hperm : List.Perm xs ys := (List.perm_ext_iff_of_nodup hxnd hynd).mpr hset
    have hlen := hperm.length_eq
    simp only [sameAttributes]
    rw [if_neg (by simpa using hlen)]
    by_cases hnil : xs.length = 0
    · rw [if_pos (by simpa using hnil)]
    · rw [if_neg (by simpa using hnil), buildAttrMap_eq hx,
        markOthers_mapWith_some hx ys (fun _ => false) (fun y hyy => (hset y).mpr hyy)]
      simp only [allPresent_mapWith, Bool.false_or, List.all_eq_true]
      intro a ha
      exact List.any_eq_true.mpr ⟨a, (hset a).mp ha, by simp⟩

/-- Witness for C10 at a concrete pair of reordered attribute lists. -/
theorem C10_sameAttributes_set_equality_witness :
    ((attrNames [Attr.mk "a" [1], Attr.mk "b" [2]]).Nodup
        ∧ (attrNames [Attr.mk "b" [2], Attr.mk "a" [1]]).Nodup)
      ∧ (sameAttributes [Attr.mk "a" [1], Attr.mk "b" [2]]
            [Attr.mk "b" [2], Attr.mk "a" [1]] = true
          ↔ (∀ a : Attr, a ∈ [Attr.mk "a" [1], Attr.mk "b" [2]]
              ↔ a ∈ [Attr.mk "b" [2], Attr.mk "a" [1]])) :=
  ⟨⟨by decide, by decide⟩, C10_sameAttributes_set_equality (by decide) (by decide)⟩

/-! ## Unknown generic attributes: warn-once behaviour (restic/node.go,
restic/node_windows.go)

`unknownGenericAttributesHandlingHistory` is a process-wide `sync.Map`;
`checkGenericAttributeNameNotHandledAndPut` does `LoadOrStore(value, "")` and
returns `!exists`.  The map is modelled as the list of stored keys, threaded
explicitly.  `restoreGenericAttribute` (node_windows.go) dispatches on the
recognized keys and for any other key only calls
`handleUnknownGenericAttributeFound` (which logs one warning when the check
returns true) — it never modifies the node or the filesystem for such keys. -/

def checkGenericAttributeNameNotHandledAndPut (st : List String) (value : String) :
    Bool × List String :=
  if value ∈ st then (false, st) else (true, value :: st)

/-- Runs a sequence of calls to `checkGenericAttributeNameNotHandledAndPut`,
returning the list of returned booleans and the final map state. -/
def runChecks (st : List String) : List String → List Bool × List String
  | [] => ([], st)
  | k :: ks =>
    let r := checkGenericAttributeNameNotHandledAndPut st k
    let rest := runChecks r.2 ks
    (r.1 :: rest.1, rest.2)

/-- The recognized generic-attribute keys of the Windows dispatch in
`restoreGenericAttribute`: TypeFileAttribute, TypeCreationTime,
TypeSecurityDescriptor. -/
def recognizedKeys : List String := ["WinFileAttrib", "WinCreationTime", "WinSecurityDesc"]

/-- `restoreGenericAttribute` for one attribute key: a recognized key is
dispatched to its handler; an unknown key goes to
`handleUnknownGenericAttributeFound`, which emits a warning exactly when
`checkGenericAttributeNameNotHandledAndPut` returns true.  Result: new map
state and the warned key, if a warning was emitted. -/
def restoreGenericAttribute (st : List String) (attrName : String) :
    List String × Option String :=
  if attrName ∈ recognizedKeys then (st, none)
  else
    let r := checkGenericAttributeNameNotHandledAndPut st attrName
    (r.2, if r.1 then some attrName else none)

/-- `restoreGenericAttributes` folded over any sequence of attribute keys
(concatenated over any number of nodes): final map state and all warned keys
in order. -/
def runRestoreGenericAttributes (st : List String) : List String → List String × List String
  | [] => (st, [])
  | k :: ks =>
    let r := restoreGenericAttribute st k
    let rest := runRestoreGenericAttributes r.1 ks
    (rest.1, (match r.2 with | some w => [w] | none => []) ++ rest.2)

theorem runChecks_get (k : String) :
    ∀ (pre : List String) (st post : List String),
    ((runChecks st (pre ++ k :: post)).1).get? pre.length
      = some (decide (¬ k ∈ st ∧ ¬ k ∈ pre)) := by
  intro pre
  induction pre with
  | nil =>
    intro st post
    simp only [List.nil_append, runChecks, checkGenericAttributeNameNotHandledAndPut,
      List.length_nil]
    by_cases h : k ∈ st <;> simp [h]
  | cons p pre ih =>
    intro st post
    simp only [List.cons_append, runChecks, checkGenericAttributeNameNotHandledAndPut,
      List.length_cons]
    by_cases hp : p ∈ st
    · rw [if_pos hp]
      simp only [List.get?_cons_succ, List.append_eq]
      rw [ih st post]
      congr 1
      by_cases hk1 : k ∈ st <;> by_cases hk2 : k ∈ pre <;> by_cases hk3 : k = p <;>
        simp_all
    · rw [if_neg hp]
      simp only [List.get?_cons_succ, List.append_eq]
      rw [ih (p :: st) post]
      congr 1
      by_cases hk1 : k ∈ st <;> by_cases hk2 : k ∈ pre <;> by_cases hk3 : k = p <;>
        simp_all

theorem runRestore_spec : ∀ (ks st : List String),
    (∀ k, k ∈ (runRestoreGenericAttributes st ks).1
        ↔ k ∈ st ∨ (k ∈ ks ∧ k ∉ recognizedKeys))
    ∧ (∀ k, k ∈ (runRestoreGenericAttributes st ks).2
        ↔ (k ∈ ks ∧ k ∉ recognizedKeys ∧ k ∉ st))
    ∧ ((runRestoreGenericAttributes st ks).2.Nodup) := by
  intro ks
  induction ks with
  | nil => intro st; simp [runRestoreGenericAttributes]
  | cons k ks ih =>
    intro st
    by_cases hrec : k ∈ recognizedKeys
    · have hstep : restoreGenericAttribute st k = (st, none) := by
        simp [restoreGenericAttribute, hrec]
      simp only [runRestoreGenericAttributes, hstep]
      refine ⟨fun k' => ?_, fun k' => ?_, ?_⟩
      · rw [(ih st).1 k']
        simp only [List.mem_cons]
        constructor
        · rintro (h | ⟨h1, h2⟩)
          · exact Or.inl h
          · exact Or.inr ⟨Or.inr h1, h2⟩
        · rintro (h | ⟨h1 | h1, h2⟩)
          · exact Or.inl h
          · exact absurd (h1 ▸ hrec) h2
          · exact Or.inr ⟨h1, h2⟩
      · simp only [List.nil_append]
        rw [(ih st).2.1 k']
        simp only [List.mem_cons]
        constructor
        · rintro ⟨h1, h2, h3⟩
          exact ⟨Or.inr h1, h2, h3⟩
        · rintro ⟨h1 | h1, h2, h3⟩
          · exact absurd (h1 ▸ hrec) h2
          · exact ⟨h1, h2, h3⟩
      · simpa using (ih st).2.2
    · by_cases hst : k ∈ st
      · have hstep : restoreGenericAttribute st k = (st, none) := by
          simp [restoreGenericAttribute, hrec, checkGenericAttributeNameNotHandledAndPut, hst]
        simp only [runRestoreGenericAttributes, hstep]
        refine ⟨fun k' => ?_, fun k' => ?_, ?_⟩
        · rw [(ih st).1 k']
          simp only [List.mem_cons]
          constructor
          · rintro (h | ⟨h1, h2⟩)
            · exact Or.inl h
            · exact Or.inr ⟨Or.inr h1, h2⟩
          · rintro (h | ⟨h1 | h1, h2⟩)
            · exact Or.inl h
            · exact Or.inl (h1 ▸ hst)
            · exact Or.inr ⟨h1, h2⟩
        · simp only [List.nil_append]
          rw [(ih st).2.1 k']
          simp only [List.mem_cons]
          constructor
          · rintro ⟨h1, h2, h3⟩
            exact ⟨Or.inr h1, h2, h3⟩
          · rintro ⟨h1 | h1, h2, h3⟩
            · exact absurd (h1 ▸ hst) h3
            · exact ⟨h1, h2, h3⟩
        · simpa using (ih st).2.2
      · have hstep : restoreGenericAttribute st k = (k :: st, some k) := by
          simp [restoreGenericAttribute, hrec, checkGenericAttributeNameNotHandledAndPut, hst]
        simp only [runRestoreGenericAttributes, hstep]
        refine ⟨fun k' => ?_, fun k' => ?_, ?_⟩
        · rw [(ih (k :: st)).1 k']
          simp only [List.mem_cons]
          constructor
          · rintro ((rfl | h) | ⟨h1, h2⟩)
            · exact Or.inr ⟨Or.inl rfl, hrec⟩
            · exact Or.inl h
            · exact Or.inr ⟨Or.inr h1, h2⟩
          · rintro (h | ⟨h1 | h1, h2⟩)
            · exact Or.inl (Or.inr h)
            · exact Or.inl (Or.inl h1)
            · exact Or.inr ⟨h1, h2⟩
        · simp only [List.singleton_append, List.mem_cons]
          rw [(ih (k :: st)).2.1 k']
          simp only [List.mem_cons]
          constructor
          · rintro (rfl | ⟨h1, h2, h3⟩)
            · exact ⟨Or.inl rfl, hrec, hst⟩
            · exact ⟨Or.inr h1, h2, fun hk => h3 (Or.inr hk)⟩
          · rintro ⟨h1 | h1, h2, h3⟩
            · exact Or.inl h1
            · by_cases hkk : k' = k
              · exact Or.inl hkk
              · exact Or.inr ⟨h1, h2, fun hk => (by
                  rcases hk with hk | hk
                  · exact hkk hk
                  · exact h3 hk)⟩
        · simp only [List.singleton_append, List.nodup_cons]
          refine ⟨fun hmem => ?_, by simpa using (ih (k :: st)).2.2⟩
          have := ((ih (k :: st)).2.1 k).mp hmem
          exact this.2.2 (List.mem_cons_self _ _)

/-- Claim C3: warn-at-most-once per unknown generic-attribute key per process
lifetime.  For any sequence of calls to
`checkGenericAttributeNameNotHandledAndPut` starting from the empty process
state, the call at position `pre.length` (key `k`, preceded by the keys `pre`)
returns true exactly when no earlier call used key `k`; and across any
sequence of `restoreGenericAttributes` calls (any number of nodes, attribute
keys concatenated as `ks`), a warning is emitted exactly once for each
distinct unrecognized key that occurs, and never for recognized keys. -/
theorem C3_unknown_generic_attribute_warn_once
    (pre post ks : List String) (k : String) :
    (((runChecks [] (pre ++ k :: post)).1).get? pre.length = some (decide (¬ k ∈ pre)))
      ∧ ((runRestoreGenericAttributes [] ks).2.Nodup)
      ∧ (∀ k', k' ∈ (runRestoreGenericAttributes [] ks).2
          ↔ (k' ∈ ks ∧ k' ∉ recognizedKeys)) := by
  refine ⟨?_, (runRestore_spec ks []).2.2, fun k' => ?_⟩
  · rw [runChecks_get k pre [] post]
    simp
  · rw [(runRestore_spec ks []).2.1 k']
    simp

/-! ## `restoreMetadata` (restic/node.go)

The five metadata-restore steps are embedded as state transformers over
`(firsterr, trace)`; the outcome of each OS call is an oracle field of
`MetaEnv`.  `stepLchown` mirrors the lchown block (permission errors are
ignored unless the effective uid is 0, i.e. `os.Geteuid() > 0 &&
os.IsPermission(err)` suppresses); `stepLater` mirrors the remaining blocks,
each of which runs unconditionally and assigns `firsterr = err` only under
`if firsterr != nil` as written in the source.  `RestoreTimestamps` uses the
symlink-safe variant exactly when the node type is "symlink", and the final
chmod is skipped for symlinks. -/

structure OsErr where
  code : Nat
  isPermission : Bool
deriving DecidableEq

structure MetaEnv where
  euid : Nat
  lchownRes : Option OsErr
  timesRes : Option OsErr
  xattrRes : Option OsErr
  genattrRes : Option OsErr
  chmodRes : Option OsErr
deriving DecidableEq

inductive MetaStep
  | lchownStep
  | timesStep (symlinkSafe : Bool)
  | xattrStep
  | genattrStep
  | chmodStep
deriving DecidableEq

def stepLchown (env : MetaEnv) (s : Option OsErr × List MetaStep) :
    Option OsErr × List MetaStep :=
  let firsterr :=
    match env.lchownRes with
    | none => s.1
    | some e => if 0 < env.euid ∧ e.isPermission = true then s.1 else some e
  (firsterr, s.2 ++ [MetaStep.lchownStep])

def stepLater (res : Option OsErr) (step : MetaStep) (s : Option OsErr × List MetaStep) :
    Option OsErr × List MetaStep :=
  let firsterr :=
    match res with
    | none => s.1
    | some e => if s.1 ≠ none then some e else s.1
  (firsterr, s.2 ++ [step])

def restoreMetadata (env : MetaEnv) (nodeType : String) : Option OsErr × List MetaStep :=
  let s1 := stepLchown env (none, [])
  let s2 := stepLater env.timesRes (MetaStep.timesStep (nodeType == "symlink")) s1
  let s3 := stepLater env.xattrRes MetaStep.xattrStep s2
  let s4 := stepLater env.genattrRes MetaStep.genattrStep s3
  if nodeType ≠ "symlink" then stepLater env.chmodRes MetaStep.chmodStep s4 else s4

/-- Claim C4: `RestoreMetadata` performs the steps in the exact order lchown,
timestamps (symlink-safe variant for symlink nodes), extended attributes,
generic attributes, and finally chmod (skipped for symlink nodes), attempting
every later step regardless of earlier failures; a permission error from
lchown is suppressed whenever the process is not root (any results of the
later steps notwithstanding), and is reported when the effective uid is 0 and
the later steps succeed. -/
theorem C4_restoreMetadata_order_and_lchown (env : MetaEnv) (nodeType : String) :
    ((restoreMetadata env nodeType).2
        = [MetaStep.lchownStep, MetaStep.timesStep (nodeType == "symlink"),
            MetaStep.xattrStep, MetaStep.genattrStep]
          ++ (if nodeType ≠ "symlink" then [MetaStep.chmodStep] else []))
      ∧ (∀ e, env.lchownRes = some e → e.isPermission = true → 0 < env.euid →
          (restoreMetadata env nodeType).1 = none)
      ∧ (∀ e, env.lchownRes = some e → env.euid = 0 →
          env.timesRes = none → env.xattrRes = none → env.genattrRes = none →
          env.chmodRes = none →
          (restoreMetadata env nodeType).1 = some e) := by
  refine ⟨?_, ?_, ?_⟩
  · by_cases h : nodeType ≠ "symlink" <;>
      simp [restoreMetadata, stepLchown, stepLater, h]
  · intro e he hperm heuid
    have hl : (stepLchown env (none, [])).1 = none := by
      simp [stepLchown, he, heuid, hperm]
    by_cases h : nodeType ≠ "symlink" <;>
      · simp only [restoreMetadata, h]
        cases env.timesRes <;> cases env.xattrRes <;> cases env.genattrRes <;>
          cases env.chmodRes <;> simp_all [stepLater]
  · intro e he heuid ht hx hg hc
    by_cases h : nodeType ≠ "symlink" <;>
      simp [restoreMetadata, stepLchown, stepLater, h, he, heuid, ht, hx, hg, hc]

/-- Witness for C4: a non-root process with a permission-denied lchown (and a
failing timestamp step) reports no error; a root process with a failing
lchown and succeeding later steps reports the lchown error; the step trace is
as specified. -/
theorem C4_restoreMetadata_order_and_lchown_witness :
    ((restoreMetadata ⟨1000, some ⟨13, true⟩, some ⟨5, false⟩, none, none, none⟩ "file").2
        = [MetaStep.lchownStep, MetaStep.timesStep ("file" == "symlink"),
            MetaStep.xattrStep, MetaStep.genattrStep]
          ++ (if ("file" : String) ≠ "symlink" then [MetaStep.chmodStep] else []))
      ∧ (restoreMetadata ⟨1000, some ⟨13, true⟩, some ⟨5, false⟩, none, none, none⟩ "file").1
          = none
      ∧ (restoreMetadata ⟨0, some ⟨13, true⟩, none, none, none, none⟩ "file").1
          = some ⟨13, true⟩ :=
  ⟨(C4_restoreMetadata_order_and_lchown ⟨1000, some ⟨13, true⟩, some ⟨5, false⟩, none, none, none⟩ "file").1,
    (C4_restoreMetadata_order_and_lchown ⟨1000, some ⟨13, true⟩, some ⟨5, false⟩, none, none, none⟩ "file").2.1
      ⟨13, true⟩ rfl rfl (by decide),
    (C4_restoreMetadata_order_and_lchown ⟨0, some ⟨13, true⟩, none, none, none, none⟩ "file").2.2
      ⟨13, true⟩ rfl rfl rfl rfl rfl rfl⟩

/-! ## Restore-time `OpenFile` retry logic (restorer/fileswriter_windows.go,
restorer/fileswriter_notwin.go)

The OS calls are oracles: `firstImpl`/`secondImpl` are the results of the two
possible `openFileImpl` invocations, `setReadonlyRes` the result of
`setReadonlyIfNeeded`.  `OpenFileW` mirrors the Windows `OpenFile` wrapper
exactly as written: after an access-denied first attempt it assigns
`err = setReadonlyIfNeeded(...)` and re-invokes `openFileImpl` only under
`if err != nil`; when `setReadonlyIfNeeded` returns nil the function falls
through and returns the (nil) `file` and nil `err` from the failed first
attempt.  The Boolean in the result records whether the second `openFileImpl`
call was made.  `openFileNotwin` mirrors the non-Windows `openFile`, whose
every path returns the named result variable `file`, which is never assigned
(the opened handle is stored in the local `f`). -/

structure GoFile where
  id : Nat
deriving DecidableEq

structure WinErr where
  code : Nat
  isAccessDenied : Bool
  isNotExist : Bool
deriving DecidableEq

structure WinOpenEnv where
  fileAttributes : Nat
  isAds : Bool
  firstImpl : Except WinErr GoFile
  setReadonlyRes : Option WinErr
  secondImpl : Except WinErr GoFile

def OpenFileW (env : WinOpenEnv) : (Option GoFile × Option WinErr) × Bool :=
  match env.firstImpl with
  | Except.ok f => ((some f, none), false)
  | Except.error e =>
    if e.isAccessDenied then
      match env.setReadonlyRes with
      | some _e2 =>
        match env.secondImpl with
        | Except.ok f => ((some f, none), true)
        | Except.error e3 => ((none, some e3), true)
      | none => ((none, none), false)
    else ((none, some e), false)

structure NotwinEnv where
  createRes : Except WinErr GoFile
  resetPermRes : Option WinErr
  truncRes : Except WinErr GoFile
  wronlyRes : Except WinErr GoFile

def openFileNotwin (env : NotwinEnv) (createSize : Int) : Option GoFile × Option WinErr :=
  if createSize ≥ 0 then
    match env.createRes with
    | Except.ok _f => (none, none)
    | Except.error e =>
      if e.isAccessDenied then
        match env.resetPermRes with
        | some e2 => (none, some e2)
        | none =>
          match env.truncRes with
          | Except.ok _f => (none, none)
          | Except.error e3 => (none, some e3)
      else (none, some e)
  else
    match env.wronlyRes with
    | Except.ok _f => (none, none)
    | Except.error e => (none, some e)

/-- Claim C2 evaluated at its failing inputs.  Windows: the first open fails
with an access-denied error on a read-only file and clearing the read-only
attribute succeeds (`setReadonlyRes = none`); the claim requires a retry
returning the file, but `OpenFile` performs no retry (the flag is `false`,
the second-impl result being irrelevant) and returns neither a file nor an
error.  Non-Windows: even a successful first open returns no file, because
the function returns the never-assigned named result `file`. -/
theorem C2_openFile_retry_code_eval :
    (OpenFileW ⟨1, false, Except.error ⟨5, true, false⟩, none, Except.ok ⟨7⟩⟩
        = ((none, none), false))
      ∧ (openFileNotwin ⟨Except.ok ⟨7⟩, none, Except.ok ⟨7⟩, Except.ok ⟨7⟩⟩ 0
        = (none, none)) := by
  constructor
  · rfl
  · rfl

/-! ## `FixTime` and node JSON marshalling (restic/node.go)

`GoTime` models `time.Time` as a calendar date plus nanosecond-of-day (time
zones play no role in the claims).  `t.AddDate(y, 0, 0)` is Go
`Date(year+y, month, day, ...)`, whose normalization spills day overflow into
the following months; `normDateAux` implements that spill (the fuel is the
day count, which strictly decreases).  `FixTime` is the year clamp from
node.go. -/

def isLeap (y : Int) : Bool := (y % 4 == 0 && y % 100 != 0) || (y % 400 == 0)

def daysInMonth (y : Int) (m : Nat) : Nat :=
  if m = 2 then (if isLeap y then 29 else 28)
  else if m = 4 ∨ m = 6 ∨ m = 9 ∨ m = 11 then 30
  else 31

def normDateAux : Nat → Int → Nat → Nat → Int × Nat × Nat
  | 0, y, m, d => (y, m, d)
  | fuel + 1, y, m, d =>
    if d ≤ daysInMonth y m then (y, m, d)
    else if m = 12 then normDateAux fuel (y + 1) 1 (d - 31)
    else normDateAux fuel y (m + 1) (d - daysInMonth y m)

def normDate (y : Int) (m d : Nat) : Int × Nat × Nat := normDateAux d y m d

structure GoTime where
  year : Int
  month : Nat
  day : Nat
  nsecOfDay : Nat
deriving DecidableEq

/-- `t.AddDate(years, 0, 0)`. -/
def addDateYears (t : GoTime) (years : Int) : GoTime :=
  let r := normDate (t.year + years) t.month t.day
  ⟨r.1, r.2.1, r.2.2, t.nsecOfDay⟩

/-- `FixTime` from node.go: clamp the year into [0, 9999] via `AddDate`. -/
def FixTime (t : GoTime) : GoTime :=
  if t.year < 0 then addDateYears t (-t.year)
  else if t.year > 9999 then addDateYears t (-(t.year - 9999))
  else t

/-- A `GoTime` denoting an actual `time.Time` value: month in 1..12 and day
within the month. -/
def ValidGoTime (t : GoTime) : Prop :=
  1 ≤ t.month ∧ t.month ≤ 12 ∧ 1 ≤ t.day ∧ t.day ≤ daysInMonth t.year t.month

instance (t : GoTime) : Decidable (ValidGoTime t) := by
  unfold ValidGoTime; infer_instance

/-! UTF-8 validity and the `encoding/json` treatment of invalid strings.
`utf8Valid` is `utf8.ValidString` (Go's accept-range table); `utf8Fix` is
what a Go string becomes after `json.Marshal`/`json.Unmarshal`: valid runes
are copied, each invalid byte is replaced by U+FFFD (bytes EF BF BD) and the
scan advances one byte, exactly as the encoder does via
`DecodeRuneInString`. -/

def utf8Lo (x : Nat) : Nat := if x = 0xE0 then 0xA0 else if x = 0xF0 then 0x90 else 0x80

def utf8Hi (x : Nat) : Nat := if x = 0xED then 0x9F else if x = 0xF4 then 0x8F else 0xBF

def accept2 (x b : Nat) : Bool := decide (utf8Lo x ≤ b) && decide (b ≤ utf8Hi x)

def isCont (b : Nat) : Bool := decide (0x80 ≤ b) && decide (b ≤ 0xBF)

/-- One step of Go's UTF-8 decoder (`utf8.DecodeRune`): for a first byte `x`
and the remaining input, return the bytes of the decoded rune and the rest of
the input, or `none` for an invalid sequence (in which case the decoder
consumes exactly the one byte `x`). -/
def utf8Step (x : Nat) (rest : List Nat) : Option (List Nat × List Nat) :=
  if x < 0x80 then some ([x], rest)
  else if x < 0xC2 then none
  else if x ≤ 0xDF then
    match rest with
    | b :: r => if accept2 x b then some ([x, b], r) else none
    | [] => none
  else if x ≤ 0xEF then
    match rest with
    | b :: c :: r => if accept2 x b && isCont c then some ([x, b, c], r) else none
    | _ => none
  else if x ≤ 0xF4 then
    match rest with
    | b :: c :: d :: r =>
      if accept2 x b && isCont c && isCont d then some ([x, b, c, d], r) else none
    | _ => none
  else none

/-- The fuel argument only bounds the recursion depth; since every step
consumes at least the first byte, `l.length` fuel always suffices. -/
def utf8ValidAux : Nat → List Nat → Bool
  | _, [] => true
  | 0, _ :: _ => false
  | fuel + 1, x :: rest =>
    match utf8Step x rest with
    | some (_, r) => utf8ValidAux fuel r
    | none => false

/-- `utf8.ValidString` on byte lists. -/
def utf8Valid (l : List Nat) : Bool := utf8ValidAux l.length l

/-- The UTF-8 encoding of U+FFFD. -/
def replacementBytes : List Nat := [0xEF, 0xBF, 0xBD]

def utf8FixAux : Nat → List Nat → List Nat
  | _, [] => []
  | 0, l => l
  | fuel + 1, x :: rest =>
    match utf8Step x rest with
    | some (seq, r) => seq ++ utf8FixAux fuel r
    | none => replacementBytes ++ utf8FixAux fuel rest

/-- What a Go string becomes after a `json.Marshal`/`json.Unmarshal` cycle:
valid runes are copied, each invalid byte is replaced by U+FFFD and the scan
advances one byte, as `encoding/json` does via `DecodeRuneInString`. -/
def utf8Fix (l : List Nat) : List Nat := utf8FixAux l.length l

theorem utf8Step_spec {x : Nat} {rest seq r : List Nat}
    (h : utf8Step x rest = some (seq, r)) :
    seq ++ r = x :: rest ∧ r.length ≤ rest.length := by
  unfold utf8Step at h
  split at h
  · rcases Option.some.inj h with h'
    rcases Prod.mk.injEq .. ▸ h' with ⟨rfl, rfl⟩
    simp
  · split at h
    · cases h
    · split at h
      · rcases rest with _ | ⟨b, r'⟩
        · cases h
        · simp only at h
          split at h
          · rcases Option.some.inj h with h'
            rcases Prod.mk.injEq .. ▸ h' with ⟨rfl, rfl⟩
            simp
          · cases h
      · split at h
        · rcases rest with _ | ⟨b, _ | ⟨c, r'⟩⟩
          · cases h
          · cases h
          · simp only at h
            split at h
            · rcases Option.some.inj h with h'
              rcases Prod.mk.injEq .. ▸ h' with ⟨rfl, rfl⟩
              simp
              omega
            · cases h
        · split at h
          · rcases rest with _ | ⟨b, _ | ⟨c, _ | ⟨d, r'⟩⟩⟩
            · cases h
            · cases h
            · cases h
            · simp only at h
              split at h
              · rcases Option.some.inj h with h'
                rcases Prod.mk.injEq .. ▸ h' with ⟨rfl, rfl⟩
                simp
                omega
              · cases h
          · cases h

theorem utf8FixAux_of_valid :
    ∀ (fuel : Nat) (l : List Nat), l.length ≤ fuel →
      utf8ValidAux fuel l = true → utf8FixAux fuel l = l := by
  intro fuel
  induction fuel with
  | zero =>
    intro l hlen _
    cases l with
    | nil => rfl
    | cons x rest => simp at hlen
  | succ fuel ih =>
    intro l hlen hv
    cases l with
    | nil => rfl
    | cons x rest =>
      rcases hstep : utf8Step x rest with - | ⟨seq, r⟩
      · rw [utf8ValidAux, hstep] at hv
        exact absurd hv (by simp)
      · rw [utf8ValidAux, hstep] at hv
        replace hv : utf8ValidAux fuel r = true := hv
        rw [utf8FixAux, hstep]
        have hspec := utf8Step_spec hstep
        show seq ++ utf8FixAux fuel r = x :: rest
        rw [ih r (by simp at hlen; omega) hv]
        exact hspec.1

theorem utf8Fix_of_valid {l : List Nat} (h : utf8Valid l = true) : utf8Fix l = l :=
  utf8FixAux_of_valid l.length l le_rfl h

/-- The fields of `restic.Node` exercised by the JSON claims: times, link
target and the parallel raw field. -/
structure GoNode where
  modTime : GoTime
  accessTime : GoTime
  changeTime : GoTime
  linkTarget : ByteStr
  linkTargetRaw : Option ByteStr
deriving DecidableEq

/-- The JSON document produced for those fields: string-typed fields carry
the bytes recovered after an encode/decode cycle (invalid UTF-8 is replaced),
byte-slice fields are base64 and round-trip exactly; `none` means the
omitempty field is absent. -/
structure NodeWire where
  mtime : GoTime
  atime : GoTime
  ctime : GoTime
  linktarget : ByteStr
  linktargetRaw : Option ByteStr
deriving DecidableEq

/-- `Node.MarshalJSON`: clamp the three times with `FixTime`, panic (`none`)
when `LinkTargetRaw` was set manually, set `linktarget_raw` to the raw bytes
exactly when `LinkTarget` is not valid UTF-8. -/
def marshalNode (node : GoNode) : Option NodeWire :=
  let node := { node with
    modTime := FixTime node.modTime,
    accessTime := FixTime node.accessTime,
    changeTime := FixTime node.changeTime }
  if node.linkTargetRaw ≠ none then none
  else
    some { mtime := node.modTime, atime := node.accessTime, ctime := node.changeTime,
           linktarget := utf8Fix node.linkTarget,
           linktargetRaw := if utf8Valid node.linkTarget then none else some node.linkTarget }

/-- `Node.UnmarshalJSON`: decode all fields; when `linktarget_raw` is
present, its value overwrites `LinkTarget` and the raw field is cleared. -/
def unmarshalNode (w : NodeWire) : GoNode :=
  match w.linktargetRaw with
  | some raw =>
    { modTime := w.mtime, accessTime := w.atime, changeTime := w.ctime,
      linkTarget := raw, linkTargetRaw := none }
  | none =>
    { modTime := w.mtime, accessTime := w.atime, changeTime := w.ctime,
      linkTarget := w.linktarget, linkTargetRaw := none }

theorem normDateAux_stop (fuel : Nat) {y : Int} {m d : Nat} (h : d ≤ daysInMonth y m) :
    normDateAux fuel y m d = (y, m, d) := by
  cases fuel with
  | zero => rfl
  | succ n => rw [normDateAux, if_pos h]

theorem daysInMonth_ne_two {m : Nat} (h : m ≠ 2) (y y' : Int) :
    daysInMonth y m = daysInMonth y' m := by
  simp [daysInMonth, h]

theorem daysInMonth_two_le (y : Int) : daysInMonth y 2 ≤ 29 := by
  by_cases h : isLeap y <;> simp [daysInMonth, h]

theorem daysInMonth_le_year_zero (y : Int) (m : Nat) :
    daysInMonth y m ≤ daysInMonth 0 m := by
  by_cases h : m = 2
  · subst h
    have h29 : daysInMonth 0 2 = 29 := by decide
    rw [h29]
    exact daysInMonth_two_le y
  · rw [daysInMonth_ne_two h y 0]

theorem fixTime_in_range {t : GoTime} (h0 : 0 ≤ t.year) (h1 : t.year ≤ 9999) :
    FixTime t = t := by
  rw [FixTime, if_neg (by omega), if_neg (by omega)]

theorem fixTime_low {t : GoTime} (hv : ValidGoTime t) (hy : t.year < 0) :
    FixTime t = ⟨0, t.month, t.day, t.nsecOfDay⟩ := by
  obtain ⟨h1, h2, h3, h4⟩ := hv
  rw [FixTime, if_pos hy]
  simp only [addDateYears]
  have hsum : t.year + -t.year = 0 := by omega
  rw [hsum]
  have hd : t.day ≤ daysInMonth 0 t.month :=
    le_trans h4 (daysInMonth_le_year_zero t.year t.month)
  rw [normDate, normDateAux_stop _ hd]

theorem fixTime_high {t : GoTime} (hv : ValidGoTime t) (hy : 9999 < t.year)
    (hnot : ¬(t.month = 2 ∧ t.day = 29)) :
    FixTime t = ⟨9999, t.month, t.day, t.nsecOfDay⟩ := by
  obtain ⟨h1, h2, h3, h4⟩ := hv
  rw [FixTime, if_neg (by omega), if_pos (by omega)]
  simp only [addDateYears]
  have hsum : t.year + -(t.year - 9999) = 9999 := by omega
  rw [hsum]
  have hd : t.day ≤ daysInMonth 9999 t.month := by
    by_cases hm : t.month = 2
    · have h29 : t.day ≠ 29 := fun hd29 => hnot ⟨hm, hd29⟩
      have hle := daysInMonth_two_le t.year
      rw [hm] at h4
      have h9 : daysInMonth 9999 2 = 28 := by decide
      rw [hm, h9]
      omega
    · rw [daysInMonth_ne_two hm 9999 t.year]
      exact h4
  rw [normDate, normDateAux_stop _ hd]

theorem fixTime_high_feb29 {t : GoTime} (hy : 9999 < t.year)
    (hm : t.month = 2) (hd : t.day = 29) :
    FixTime t = ⟨9999, 3, 1, t.nsecOfDay⟩ := by
  rw [FixTime, if_neg (by omega), if_pos (by omega)]
  simp only [addDateYears]
  have hsum : t.year + -(t.year - 9999) = 9999 := by omega
  rw [hsum, hm, hd]
  have hcomp : normDate 9999 2 29 = (9999, 3, 1) := by decide
  rw [hcomp]

/-- Claim C5 counterexample: at the valid time February 29 of year 10000 (a
leap year), whose year exceeds 9999, the clamp changes the month and the day
(the result is March 1, 9999), refuting "in either clamped case nothing other
than the year changes". -/
theorem C5_fixTime_counterexample :
    ValidGoTime ⟨10000, 2, 29, 0⟩
      ∧ 9999 < (GoTime.mk 10000 2 29 0).year
      ∧ ¬((FixTime ⟨10000, 2, 29, 0⟩).month = (GoTime.mk 10000 2 29 0).month
          ∧ (FixTime ⟨10000, 2, 29, 0⟩).day = (GoTime.mk 10000 2 29 0).day) := by
  refine ⟨by decide, by decide, ?_⟩
  have h : FixTime ⟨10000, 2, 29, 0⟩ = ⟨9999, 3, 1, 0⟩ :=
    fixTime_high_feb29 (by decide) rfl rfl
  rw [h]
  decide

/-- Claim C5 (amended): for every valid time `t`, `FixTime t` has its year in
[0, 9999]; if the year is in range the time is unchanged; if below 0 the year
becomes 0 and nothing else changes; if above 9999 the year becomes 9999 and
nothing else changes unless the date is February 29, which normalizes to
March 1 of year 9999; the nanoseconds-of-day are always preserved; and
`MarshalJSON` applies this clamping to ModTime, AccessTime and ChangeTime. -/
theorem C5_fixTime_clamp_amended (t : GoTime) (hv : ValidGoTime t) :
    (0 ≤ (FixTime t).year ∧ (FixTime t).year ≤ 9999)
      ∧ ((FixTime t).nsecOfDay = t.nsecOfDay)
      ∧ (0 ≤ t.year → t.year ≤ 9999 → FixTime t = t)
      ∧ (t.year < 0 → FixTime t = ⟨0, t.month, t.day, t.nsecOfDay⟩)
      ∧ (9999 < t.year → ¬(t.month = 2 ∧ t.day = 29) →
          FixTime t = ⟨9999, t.month, t.day, t.nsecOfDay⟩)
      ∧ (9999 < t.year → t.month = 2 → t.day = 29 →
          FixTime t = ⟨9999, 3, 1, t.nsecOfDay⟩)
      ∧ (∀ (n : GoNode) (w : NodeWire), marshalNode n = some w →
          w.mtime = FixTime n.modTime ∧ w.atime = FixTime n.accessTime
            ∧ w.ctime = FixTime n.changeTime) := by
  have hcases : (0 ≤ t.year ∧ t.year ≤ 9999) ∨ t.year < 0 ∨ 9999 < t.year := by omega
  refine ⟨?_, ?_, fun ha hb => fixTime_in_range ha hb, fun h => fixTime_low hv h,
    fun h hn => fixTime_high hv h hn, fun h hm hd => fixTime_high_feb29 h hm hd, ?_⟩
  · rcases hcases with ⟨h0, h1⟩ | h0 | h0
    · rw [fixTime_in_range h0 h1]; exact ⟨h0, h1⟩
    · rw [fixTime_low hv h0]; exact ⟨by norm_num, by norm_num⟩
    · by_cases hfeb : t.month = 2 ∧ t.day = 29
      · rw [fixTime_high_feb29 h0 hfeb.1 hfeb.2]; exact ⟨by norm_num, by norm_num⟩
      · rw [fixTime_high hv h0 hfeb]; exact ⟨by norm_num, by norm_num⟩
  · rcases hcases with ⟨h0, h1⟩ | h0 | h0
    · rw [fixTime_in_range h0 h1]
    · rw [fixTime_low hv h0]
    · by_cases hfeb : t.month = 2 ∧ t.day = 29
      · rw [fixTime_high_feb29 h0 hfeb.1 hfeb.2]
      · rw [fixTime_high hv h0 hfeb]
  · intro n w h
    by_cases hr : n.linkTargetRaw = none
    · simp only [marshalNode, hr, ne_eq, not_true_eq_false, if_neg, ite_false,
        Option.some.injEq, reduceCtorEq] at h
      rw [← h]
      exact ⟨rfl, rfl, rfl⟩
    · simp [marshalNode, hr] at h

/-- Witness for C5 at three concrete valid times: a below-range year is
clamped to year 0 with month/day/nanoseconds intact, an above-range year to
9999, and February 29 of year 10000 to March 1, 9999. -/
theorem C5_fixTime_clamp_amended_witness :
    ValidGoTime ⟨-500, 6, 15, 42⟩
      ∧ FixTime ⟨-500, 6, 15, 42⟩ = ⟨0, 6, 15, 42⟩
      ∧ FixTime ⟨12000, 5, 31, 7⟩ = ⟨9999, 5, 31, 7⟩
      ∧ FixTime ⟨10000, 2, 29, 3⟩ = ⟨9999, 3, 1, 3⟩ :=
  ⟨by decide,
    (C5_fixTime_clamp_amended ⟨-500, 6, 15, 42⟩ (by decide)).2.2.2.1 (by decide),
    (C5_fixTime_clamp_amended ⟨12000, 5, 31, 7⟩ (by decide)).2.2.2.2.1 (by decide) (by decide),
    (C5_fixTime_clamp_amended ⟨10000, 2, 29, 3⟩ (by decide)).2.2.2.2.2.1 (by decide) rfl rfl⟩

/-- Claim C6: link-target round trip.  For every node whose `LinkTargetRaw`
is nil, `MarshalJSON` succeeds and emits the parallel `linktarget_raw` field
exactly when `LinkTarget` is not valid UTF-8; decoding the marshalled
document restores the original link-target bytes with a nil raw field; and
whenever a document carries the raw field, its value wins on decode. -/
theorem C6_linktarget_roundtrip (n : GoNode) (h : n.linkTargetRaw = none) :
    ∃ w, marshalNode n = some w
      ∧ ((w.linktargetRaw ≠ none) ↔ utf8Valid n.linkTarget = false)
      ∧ (unmarshalNode w).linkTarget = n.linkTarget
      ∧ (unmarshalNode w).linkTargetRaw = none
      ∧ (∀ (w' : NodeWire) (r : ByteStr), w'.linktargetRaw = some r →
          (unmarshalNode w').linkTarget = r ∧ (unmarshalNode w').linkTargetRaw = none) := by
  refine ⟨⟨FixTime n.modTime, FixTime n.accessTime, FixTime n.changeTime,
      utf8Fix n.linkTarget,
      if utf8Valid n.linkTarget then none else some n.linkTarget⟩,
    ?_, ?_, ?_, ?_, ?_⟩
  · simp [marshalNode, h]
  · by_cases hval : utf8Valid n.linkTarget <;> simp [hval]
  · by_cases hval : utf8Valid n.linkTarget = true
    · simp only [unmarshalNode, hval, if_pos trivial, ite_true]
      exact utf8Fix_of_valid hval
    · simp [unmarshalNode, hval]
  · by_cases hval : utf8Valid n.linkTarget = true <;>
      simp [unmarshalNode, hval]
  · intro w' r hr
    simp [unmarshalNode, hr]

/-- Witness for C6 at a node whose link target is the single invalid byte
0xFF: marshalling emits the raw field and decoding restores the byte. -/
theorem C6_linktarget_roundtrip_witness :
    (GoNode.mk ⟨2024, 1, 1, 0⟩ ⟨2024, 1, 1, 0⟩ ⟨2024, 1, 1, 0⟩ [255] none).linkTargetRaw = none
      ∧ ∃ w, marshalNode (GoNode.mk ⟨2024, 1, 1, 0⟩ ⟨2024, 1, 1, 0⟩ ⟨2024, 1, 1, 0⟩ [255] none)
            = some w
          ∧ ((w.linktargetRaw ≠ none)
              ↔ utf8Valid (GoNode.mk ⟨2024, 1, 1, 0⟩ ⟨2024, 1, 1, 0⟩ ⟨2024, 1, 1, 0⟩
                  [255] none).linkTarget = false)
          ∧ (unmarshalNode w).linkTarget
              = (GoNode.mk ⟨2024, 1, 1, 0⟩ ⟨2024, 1, 1, 0⟩ ⟨2024, 1, 1, 0⟩ [255] none).linkTarget
          ∧ (unmarshalNode w).linkTargetRaw = none
          ∧ (∀ (w' : NodeWire) (r : ByteStr), w'.linktargetRaw = some r →
              (unmarshalNode w').linkTarget = r ∧ (unmarshalNode w').linkTargetRaw = none) :=
  ⟨rfl, C6_linktarget_roundtrip _ rfl⟩

/-! ## ADS main-file safety (restorer/restorer_windows.go,
restorer/fileswriter_windows.go)

Model of the Windows target filesystem for one main file and its alternate
data streams: `AdsFS` records whether the main file exists, its main (unnamed
stream) content, and the named streams.  Creating a stream auto-creates an
empty main file; opening the main file with `O_TRUNC|O_WRONLY` fails with a
not-exist error when it is absent and otherwise truncates only the unnamed
stream; opening it with `O_CREATE|O_TRUNC|O_WRONLY` creates it — and, when it
already existed, would also destroy its streams (the hazard the code's
comments describe).  The per-main-path mutex serializes the open/create
decisions, so restore is modelled as executing the per-file operations in an
arbitrary sequential order.  `openFileImplMain` mirrors `openFileImpl`
followed by `handleCreateFile`/`handleCreateFileAds` for the main file of an
ADS set (generic attribute TypeHasADS present, createSize >= 0): try without
`O_CREATE`, on a not-exist error re-check under the mutex and only then
create; the returned list is the trace of open attempts. -/

inductive OpenFlags
  | truncWrite
  | createTruncWrite
deriving DecidableEq

structure AdsFS where
  mainExists : Bool
  mainContent : List Nat
  streams : List (String × List Nat)
deriving DecidableEq

structure AdsSnapshot where
  mainContent : List Nat
  streams : List (String × List Nat)
deriving DecidableEq

def notExistErr : WinErr := ⟨2, false, true⟩

def streamUpsert : List (String × List Nat) → String → List Nat → List (String × List Nat)
  | [], n, c => [(n, c)]
  | e :: es, n, c => if e.1 = n then (n, c) :: es else e :: streamUpsert es n c

def lookupStream : List (String × List Nat) → String → Option (List Nat)
  | [], _ => none
  | e :: es, n => if e.1 = n then some e.2 else lookupStream es n

/-- `openFileWithTruncWrite` on the main path. -/
def openTruncWriteMain (fs : AdsFS) : Except WinErr AdsFS :=
  if fs.mainExists then Except.ok { fs with mainContent := [] }
  else Except.error notExistErr

/-- `openFileWithCreate` on the main path (O_CREATE|O_TRUNC|O_WRONLY):
creates or truncates the main file; an existing file's streams would be
destroyed. -/
def openCreateMain (fs : AdsFS) : AdsFS :=
  ⟨true, [], if fs.mainExists then [] else fs.streams⟩

/-- `openFileImpl` + `handleCreateFileAds` for the hasADS main file, under
the per-main-path mutex: first `openFileWithTruncWrite`; if the file exists
use it; on a not-exist error, `handleCreateFileAds` re-checks with another
`openFileWithTruncWrite` and only after that fails not-exist opens with
`openFileWithCreate`. -/
def openFileImplMain (fs : AdsFS) : Except WinErr (AdsFS × List OpenFlags) :=
  match openTruncWriteMain fs with
  | Except.ok fs' => Except.ok (fs', [OpenFlags.truncWrite])
  | Except.error e =>
    if e.isNotExist then
      match openTruncWriteMain fs with
      | Except.ok fs' => Except.ok (fs', [OpenFlags.truncWrite, OpenFlags.truncWrite])
      | Except.error e2 =>
        if e2.isNotExist then
          Except.ok (openCreateMain fs,
            [OpenFlags.truncWrite, OpenFlags.truncWrite, OpenFlags.createTruncWrite])
        else Except.error e2
    else Except.error e

/-- Restoring the main file: open it by the protocol above, then write the
snapshot's main content. -/
def restoreMain (snap : AdsSnapshot) (fs : AdsFS) : AdsFS × List OpenFlags :=
  match openFileImplMain fs with
  | Except.ok (fs', tr) => ({ fs' with mainContent := snap.mainContent }, tr)
  | Except.error _ => (fs, [])

/-- Restoring one ADS stream: the stream is opened with `O_CREATE` (always
safe): the main file is auto-created empty when absent and never overwritten
when present, and the stream content is attached. -/
def restoreStream (name : String) (content : List Nat) (fs : AdsFS) : AdsFS :=
  { mainExists := true,
    mainContent := if fs.mainExists then fs.mainContent else [],
    streams := streamUpsert fs.streams name content }

inductive RestoreOp
  | mainOp
  | streamOp (name : String) (content : List Nat)
deriving DecidableEq

def execOp (snap : AdsSnapshot) (fs : AdsFS) : RestoreOp → AdsFS
  | RestoreOp.mainOp => (restoreMain snap fs).1
  | RestoreOp.streamOp name content => restoreStream name content fs

def runOps (snap : AdsSnapshot) (ops : List RestoreOp) (fs : AdsFS) : AdsFS :=
  ops.foldl (execOp snap) fs

/-- The restore operations of one ADS file set: one per snapshot stream. -/
def streamOps (snap : AdsSnapshot) : List RestoreOp :=
  snap.streams.map (fun p => RestoreOp.streamOp p.1 p.2)

theorem restoreMain_eq (snap : AdsSnapshot) (fs : AdsFS) :
    restoreMain snap fs
      = (⟨true, snap.mainContent, fs.streams⟩,
        if fs.mainExists then [OpenFlags.truncWrite]
        else [OpenFlags.truncWrite, OpenFlags.truncWrite, OpenFlags.createTruncWrite]) := by
  obtain ⟨me, mc, st⟩ := fs
  cases me <;>
    simp [restoreMain, openFileImplMain, openTruncWriteMain, openCreateMain, notExistErr]

theorem lookupStream_upsert_self (s : List (String × List Nat)) (n : String) (c : List Nat) :
    lookupStream (streamUpsert s n c) n = some c := by
  induction s with
  | nil => simp [streamUpsert, lookupStream]
  | cons e es ih =>
    by_cases h : e.1 = n
    · simp [streamUpsert, lookupStream, h]
    · simp [streamUpsert, lookupStream, h, ih]

theorem lookupStream_upsert_other (s : List (String × List Nat)) {n m : String}
    (c : List Nat) (h : m ≠ n) :
    lookupStream (streamUpsert s m c) n = lookupStream s n := by
  induction s with
  | nil => simp [streamUpsert, lookupStream, h]
  | cons e es ih =>
    by_cases he : e.1 = m
    · simp [streamUpsert, lookupStream, he, h, ih]
    · simp only [streamUpsert, if_neg he, lookupStream]
      by_cases hen : e.1 = n
      · simp [hen]
      · simp [hen, ih]

theorem runOps_no_main (snap : AdsSnapshot) :
    ∀ (l : List RestoreOp) (fs : AdsFS), RestoreOp.mainOp ∉ l → fs.mainExists = true →
    (runOps snap l fs).mainContent = fs.mainContent
      ∧ (runOps snap l fs).mainExists = true := by
  intro l
  induction l with
  | nil => intro fs _ hex; exact ⟨rfl, hex⟩
  | cons op l ih =>
    intro fs hmem hex
    cases op with
    | mainOp => exact absurd (List.mem_cons_self _ _) hmem
    | streamOp n c =>
      have hstep : execOp snap fs (RestoreOp.streamOp n c)
          = ⟨true, fs.mainContent, streamUpsert fs.streams n c⟩ := by
        simp [execOp, restoreStream, hex]
      show (runOps snap l (execOp snap fs (RestoreOp.streamOp n c))).mainContent = fs.mainContent
        ∧ (runOps snap l (execOp snap fs (RestoreOp.streamOp n c))).mainExists = true
      rw [hstep]
      exact ih ⟨true, fs.mainContent, streamUpsert fs.streams n c⟩
        (fun h => hmem (List.mem_cons_of_mem _ h)) rfl

theorem runOps_stream_lookup (snap : AdsSnapshot) (n : String) (c : List Nat) :
    ∀ (l : List RestoreOp) (fs : AdsFS),
    (RestoreOp.streamOp n c ∈ l ∨ lookupStream fs.streams n = some c) →
    (∀ c', RestoreOp.streamOp n c' ∈ l → c' = c) →
    lookupStream (runOps snap l fs).streams n = some c := by
  intro l
  induction l with
  | nil =>
    intro fs hin _
    rcases hin with h | h
    · cases h
    · exact h
  | cons op l ih =>
    intro fs hin huniq
    cases op with
    | mainOp =>
      have hstep : (execOp snap fs RestoreOp.mainOp).streams = fs.streams := by
        simp [execOp, restoreMain_eq]
      show lookupStream (runOps snap l (execOp snap fs RestoreOp.mainOp)).streams n = some c
      apply ih
      · rcases hin with h | h
        · rcases List.mem_cons.mp h with h' | h'
          · cases h'
          · exact Or.inl h'
        · exact Or.inr (hstep ▸ h)
      · exact fun c' hc' => huniq c' (List.mem_cons_of_mem _ hc')
    | streamOp m c'' =>
      show lookupStream (runOps snap l (execOp snap fs (RestoreOp.streamOp m c''))).streams n
          = some c
      by_cases hm : m = n
      · subst hm
        have hc'' : c'' = c := huniq c'' (List.mem_cons_self _ _)
        subst hc''
        apply ih
        · refine Or.inr ?_
          simp [execOp, restoreStream, lookupStream_upsert_self]
        · exact fun c' hc' => huniq c' (List.mem_cons_of_mem _ hc')
      · apply ih
        · rcases hin with h | h
          · rcases List.mem_cons.mp h with h' | h'
            · injection h' with h1 h2
              exact absurd h1.symm hm
            · exact Or.inl h'
          · refine Or.inr ?_
            show lookupStream (restoreStream m c'' fs).streams n = some c
            rw [restoreStream]
            simpa [lookupStream_upsert_other fs.streams c'' hm] using h
        · exact fun c' hc' => huniq c' (List.mem_cons_of_mem _ hc')

theorem mainOp_not_mem_streamOps (snap : AdsSnapshot) :
    RestoreOp.mainOp ∉ streamOps snap := by
  intro h
  rcases List.mem_map.mp h with ⟨p, -, hp⟩
  cases hp

/-- Claim C1: ADS main-file safety.  Opening the main file of an ADS set
first attempts `O_TRUNC|O_WRONLY` (no `O_CREATE`), uses `O_CREATE` only
after that attempt fails with a not-exist error, and never disturbs stream
content already created; consequently, under the per-main-path mutex, any
order of the main-file and stream-file opens restores the snapshot exactly:
the main content is the snapshot's main content (never empty unless the
snapshot's is) and every snapshot stream carries its snapshot content. -/
theorem C1_ads_main_file_safety (snap : AdsSnapshot) (fs : AdsFS) (ops : List RestoreOp)
    (hperm : List.Perm ops (RestoreOp.mainOp :: streamOps snap))
    (hnodup : (snap.streams.map Prod.fst).Nodup) :
    ((restoreMain snap fs).2.get? 0 = some OpenFlags.truncWrite
      ∧ (OpenFlags.createTruncWrite ∈ (restoreMain snap fs).2 ↔ fs.mainExists = false)
      ∧ (restoreMain snap fs).1.streams = fs.streams)
    ∧ ((runOps snap ops ⟨false, [], []⟩).mainContent = snap.mainContent
      ∧ (runOps snap ops ⟨false, [], []⟩).mainExists = true
      ∧ (∀ p ∈ snap.streams,
          lookupStream (runOps snap ops ⟨false, [], []⟩).streams p.1 = some p.2)) := by
  constructor
  · rw [restoreMain_eq]
    by_cases h : fs.mainExists <;> simp [h]
  · have hmem : RestoreOp.mainOp ∈ ops :=
      hperm.mem_iff.mpr (List.mem_cons_self _ _)
    obtain ⟨l1, l2, rfl⟩ := List.append_of_mem hmem
    have hcount : (l1 ++ RestoreOp.mainOp :: l2).count RestoreOp.mainOp = 1 := by
      rw [hperm.count_eq]
      simp [List.count_cons, List.count_eq_zero.mpr (mainOp_not_mem_streamOps snap)]
    rw [List.count_append, List.count_cons_self] at hcount
    have hl1 : RestoreOp.mainOp ∉ l1 := by
      intro h
      have := List.count_pos_iff.mpr h
      omega
    have hl2 : RestoreOp.mainOp ∉ l2 := by
      intro h
      have := List.count_pos_iff.mpr h
      omega
    have hrun : runOps snap (l1 ++ RestoreOp.mainOp :: l2) ⟨false, [], []⟩
        = runOps snap l2
            (execOp snap (runOps snap l1 ⟨false, [], []⟩) RestoreOp.mainOp) := by
      simp [runOps, List.foldl_append]
    have hmain : (execOp snap (runOps snap l1 ⟨false, [], []⟩) RestoreOp.mainOp).mainContent
          = snap.mainContent
        ∧ (execOp snap (runOps snap l1 ⟨false, [], []⟩) RestoreOp.mainOp).mainExists = true := by
      simp [execOp, restoreMain_eq]
    refine ⟨?_, ?_, ?_⟩
    · rw [hrun, (runOps_no_main snap l2 _ hl2 hmain.2).1, hmain.1]
    · rw [hrun]
      exact (runOps_no_main snap l2 _ hl2 hmain.2).2
    · intro p hp
      apply runOps_stream_lookup
      · refine Or.inl (hperm.mem_iff.mpr ?_)
        exact List.mem_cons_of_mem _ (List.mem_map_of_mem _ hp)
      · intro c' hc'
        have hmem' : RestoreOp.streamOp p.1 c' ∈ RestoreOp.mainOp :: streamOps snap :=
          hperm.mem_iff.mp hc'
        rcases List.mem_cons.mp hmem' with h' | h'
        · cases h'
        · rcases List.mem_map.mp h' with ⟨q, hq, hq'⟩
          injection hq' with hq1 hq2
          have hqp : q = p := List.inj_on_of_nodup_map hnodup hq hp hq1
          rw [← hq2, hqp]

/-- Witness for C1: restoring a stream first and the main file second (the
adverse order) from an empty target yields the snapshot's main content and
stream content. -/
theorem C1_ads_main_file_safety_witness :
    List.Perm [RestoreOp.streamOp ":s1:$DATA" [9, 9], RestoreOp.mainOp]
        (RestoreOp.mainOp :: streamOps ⟨[1, 2, 3], [(":s1:$DATA", [9, 9])]⟩)
      ∧ ((runOps ⟨[1, 2, 3], [(":s1:$DATA", [9, 9])]⟩
            [RestoreOp.streamOp ":s1:$DATA" [9, 9], RestoreOp.mainOp]
            ⟨false, [], []⟩).mainContent = [1, 2, 3]
        ∧ (runOps ⟨[1, 2, 3], [(":s1:$DATA", [9, 9])]⟩
            [RestoreOp.streamOp ":s1:$DATA" [9, 9], RestoreOp.mainOp]
            ⟨false, [], []⟩).mainExists = true
        ∧ (∀ p ∈ ([(":s1:$DATA", [9, 9])] : List (String × List Nat)),
            lookupStream (runOps ⟨[1, 2, 3], [(":s1:$DATA", [9, 9])]⟩
              [RestoreOp.streamOp ":s1:$DATA" [9, 9], RestoreOp.mainOp]
              ⟨false, [], []⟩).streams p.1 = some p.2)) :=
  ⟨by decide,
    (C1_ads_main_file_safety ⟨[1, 2, 3], [(":s1:$DATA", [9, 9])]⟩ ⟨false, [], []⟩
      [RestoreOp.streamOp ":s1:$DATA" [9, 9], RestoreOp.mainOp]
      (by decide) (by decide)).2⟩

end Zestic
